import Mathlib

/-!
Shallow embedding of the `RateLimiter` middleware of
`src/routes/transactions.route.ts` (class `RateLimiter`, lines 149-285).

Modelling choices:
* Timestamps (`Date.now()` values) and durations are natural numbers
  (milliseconds).  On this domain JavaScript number arithmetic in the source
  coincides with the model: the only subtraction guarded by a comparison is
  `blockedUntil - now` under `blockedUntil > now`, and the window test
  `now - lastRequest > windowMs` is false in JavaScript whenever
  `now < lastRequest` (negative left side) exactly as truncated natural
  subtraction makes it false (`0 > windowMs`).
* The `Map<string, {count, lastRequest, blockedUntil?}>` store is an
  association list in insertion order with unique keys; `Map.get` is
  `storeGet`, `Map.set` / in-place record mutation is `storeSet` (replace in
  place, else append), `Map.delete` is modelled by filtering.
* JavaScript truthiness tests on `blockedUntil` (`client.blockedUntil && ...`)
  are kept: the number `0` is falsy, hence the explicit `bu ≠ 0` conjuncts.
* `Array.prototype.sort` is required by the language spec to be stable, and a
  stable sort result for a total preorder is unique; `cleanup` therefore uses
  insertion sort (`List.insertionSort`), which is stable, with the comparator
  `(a, b) => b[1].lastRequest - a[1].lastRequest` rendered as the total
  preorder `entryLe`.
* `Math.ceil(x / 1000)` on the non-negative integers produced here is exact
  integer ceiling division, `(x + 999) / 1000` over `Nat`.
-/

/-- The per-client record stored in `RateLimiter.store`:
`{ count: number; lastRequest: number; blockedUntil?: number }`. -/
structure ClientRecord where
  count : Nat
  lastRequest : Nat
  blockedUntil : Option Nat
deriving Repr, DecidableEq

/-- The constructor parameters of `RateLimiter`
(`maxRequests`, `windowMs`, `blockDurationMs`, `maxEntries`). -/
structure RLConfig where
  maxRequests : Nat
  windowMs : Nat
  blockDurationMs : Nat
  maxEntries : Nat
deriving Repr, DecidableEq

/-- The outcome of one `limit` middleware call: `next()` was called
(admitted), or a 429 response with `Retry-After: retryAfter` seconds was
sent (rejected). -/
inductive Decision where
  | admitted
  | rejected (retryAfter : Nat)
deriving Repr, DecidableEq

/-- `RateLimiter.store`: a JavaScript `Map` in insertion order. -/
abbrev Store := List (String × ClientRecord)

/-- `Map.get(ip)`. -/
def storeGet : Store → String → Option ClientRecord
  | [], _ => none
  | p :: rest, ip => if p.1 = ip then some p.2 else storeGet rest ip

/-- `Map.set(ip, v)` (also models in-place mutation of the record object
held in the map): replaces the value at an existing key in place,
otherwise appends a new entry. -/
def storeSet : Store → String → ClientRecord → Store
  | [], ip, v => [(ip, v)]
  | p :: rest, ip, v => if p.1 = ip then (ip, v) :: rest else p :: storeSet rest ip v

/-- `Math.ceil(ms / 1000)` for a non-negative integer number of
milliseconds. -/
def ceilDivSec (ms : Nat) : Nat := (ms + 999) / 1000

/-- Lines 212-220 of the source: reset the counter if the gap since the
last request exceeds the window, else increment; update `lastRequest`. -/
def applyCount (cfg : RLConfig) (now : Nat) (client : ClientRecord) : ClientRecord :=
  if cfg.windowMs < now - client.lastRequest then
    ⟨1, now, client.blockedUntil⟩
  else
    ⟨client.count + 1, now, client.blockedUntil⟩

/-- Lines 222-235 of the source: re-read the current record
(`this.store.get(ip)!`) and either block the client (count above
threshold) or admit the request. -/
def finishLimit (cfg : RLConfig) (s : Store) (ip : String) (now : Nat) : Decision × Store :=
  match storeGet s ip with
  | some currentClient =>
      if cfg.maxRequests < currentClient.count then
        (Decision.rejected (ceilDivSec cfg.blockDurationMs),
         storeSet s ip ⟨currentClient.count, currentClient.lastRequest,
                        some (now + cfg.blockDurationMs)⟩)
      else (Decision.admitted, s)
  | none => (Decision.admitted, s)

/-- `RateLimiter.limit` (lines 191-236), with the client identifier and the
current time already extracted.  The first branch is the active-block check
(`client && client.blockedUntil && client.blockedUntil > now`, with the
JavaScript falsiness of the number `0` made explicit); the remaining
branches create or update the record and then run the threshold check. -/
def limit (cfg : RLConfig) (s : Store) (ip : String) (now : Nat) : Decision × Store :=
  match storeGet s ip with
  | some client =>
      match client.blockedUntil with
      | some bu =>
          if bu ≠ 0 ∧ now < bu then
            (Decision.rejected (ceilDivSec (bu - now)), s)
          else
            finishLimit cfg (storeSet s ip (applyCount cfg now client)) ip now
      | none => finishLimit cfg (storeSet s ip (applyCount cfg now client)) ip now
  | none => finishLimit cfg (storeSet s ip ⟨1, now, none⟩) ip now

/-- The comparator `(a, b) => b[1].lastRequest - a[1].lastRequest`
(sort by last request time, most recent first) as a total preorder. -/
def entryLe (a b : String × ClientRecord) : Prop :=
  b.2.lastRequest ≤ a.2.lastRequest

instance : DecidableRel entryLe := fun a b => Nat.decLe b.2.lastRequest a.2.lastRequest

instance : IsTotal (String × ClientRecord) entryLe :=
  ⟨fun a b => Nat.le_total b.2.lastRequest a.2.lastRequest⟩

instance : IsTrans (String × ClientRecord) entryLe :=
  ⟨fun _ _ _ h1 h2 => Nat.le_trans h2 h1⟩

/-- The expired-block clearing step of `cleanup` (lines 255-261):
`if (client.blockedUntil && client.blockedUntil <= now) delete
client.blockedUntil` — again with the falsiness of `0` explicit. -/
def clearExpired (now : Nat) (p : String × ClientRecord) : String × ClientRecord :=
  match p.2.blockedUntil with
  | some bu =>
      if bu ≠ 0 ∧ bu ≤ now then (p.1, ⟨p.2.count, p.2.lastRequest, none⟩) else p
  | none => p

/-- `RateLimiter.cleanup` (lines 242-262): stably sort the entries by
`lastRequest` descending, delete every entry beyond the `maxEntries` most
recent from the map (which keeps its insertion order), then clear expired
blocks on the remaining entries. -/
def cleanup (cfg : RLConfig) (s : Store) (now : Nat) : Store :=
  let sorted := List.insertionSort entryLe s
  let doomed := (sorted.drop cfg.maxEntries).map Prod.fst
  let kept := s.filter (fun p => decide (p.1 ∉ doomed))
  kept.map (clearExpired now)

/-- `forwarded.split(",")[0]`: the prefix of the string before the first
comma (JavaScript `split` never returns an empty array). -/
def takeUntilComma : List Char → List Char
  | [] => []
  | c :: cs => if c = ',' then [] else c :: takeUntilComma cs

/-- Drop leading whitespace characters. -/
def dropLeadingWs : List Char → List Char
  | [] => []
  | c :: cs => if c.isWhitespace then dropLeadingWs cs else c :: cs

/-- JavaScript `String.prototype.trim`: strip whitespace from both ends. -/
def trimChars (l : List Char) : List Char :=
  (dropLeadingWs ((dropLeadingWs l).reverse)).reverse

/-- `forwarded.split(",")[0].trim()` on a whole string. -/
def firstForwarded (s : String) : String :=
  String.mk (trimChars (takeUntilComma s.data))

/-- The request data `getClientIp` consults: the `x-forwarded-for` header
(a single string in Node when present) and `req.socket.remoteAddress`
(`undefined` when the socket has no peer address). -/
structure RLRequest where
  xForwardedFor : Option String
  remoteAddress : Option String
deriving Repr, DecidableEq

/-- `RateLimiter.getClientIp` (lines 268-277): first comma-separated value
of the forwarded header when it is a string, else
`req.socket.remoteAddress || "unknown"` (the empty string is falsy). -/
def getClientIp (req : RLRequest) : String :=
  match req.xForwardedFor with
  | some fwd => firstForwarded fwd
  | none =>
      match req.remoteAddress with
      | some addr => if addr = "" then "unknown" else addr
      | none => "unknown"

/-- One full middleware invocation: derive the client identifier from the
request, then rate-limit under it. -/
def limitRequest (cfg : RLConfig) (s : Store) (req : RLRequest) (now : Nat) :
    Decision × Store :=
  limit cfg s (getClientIp req) now

/-- The configuration of `transactionRateLimiter`
(`new RateLimiter(10, 60000, 3600000)`, `maxEntries` defaulted to 5000). -/
def transactionRateLimiterConfig : RLConfig := ⟨10, 60000, 3600000, 5000⟩

/-- The decision of `limit` and the new record of the addressed client,
as a function of that client's previous record alone.  `limit` is proved
below to act on the store exactly through this function. -/
def limitStep (cfg : RLConfig) (now : Nat) : Option ClientRecord → Decision × ClientRecord
  | some client =>
      match client.blockedUntil with
      | some bu =>
          if bu ≠ 0 ∧ now < bu then
            (Decision.rejected (ceilDivSec (bu - now)), client)
          else
            let c := applyCount cfg now client
            if cfg.maxRequests < c.count then
              (Decision.rejected (ceilDivSec cfg.blockDurationMs),
               ⟨c.count, c.lastRequest, some (now + cfg.blockDurationMs)⟩)
            else (Decision.admitted, c)
      | none =>
          let c := applyCount cfg now client
          if cfg.maxRequests < c.count then
            (Decision.rejected (ceilDivSec cfg.blockDurationMs),
             ⟨c.count, c.lastRequest, some (now + cfg.blockDurationMs)⟩)
          else (Decision.admitted, c)
  | none =>
      if cfg.maxRequests < 1 then
        (Decision.rejected (ceilDivSec cfg.blockDurationMs),
         ⟨1, now, some (now + cfg.blockDurationMs)⟩)
      else (Decision.admitted, ⟨1, now, none⟩)

/-- Run a list of timed `limit` calls for one client, returning `true`
exactly when every call is admitted. -/
def admitAll (cfg : RLConfig) (ip : String) : Store → List Nat → Bool
  | _, [] => true
  | s, t :: ts =>
      match limit cfg s ip t with
      | (Decision.admitted, s') => admitAll cfg ip s' ts
      | (Decision.rejected _, _) => false

/-- The store after a list of timed `limit` calls for one client. -/
def runStore (cfg : RLConfig) (ip : String) : Store → List Nat → Store
  | s, [] => s
  | s, t :: ts => runStore cfg ip (limit cfg s ip t).2 ts

/-- The decisions of a trace of `limit` calls (client identifier and time
per call). -/
def traceDecisions (cfg : RLConfig) : Store → List (String × Nat) → List Decision
  | _, [] => []
  | s, (ip, t) :: rest => (limit cfg s ip t).1 :: traceDecisions cfg (limit cfg s ip t).2 rest

/-- The store after a trace of `limit` calls. -/
def traceStore (cfg : RLConfig) : Store → List (String × Nat) → Store
  | s, [] => s
  | s, (ip, t) :: rest => traceStore cfg (limit cfg s ip t).2 rest

/-- The decisions handed to one client `b` within a trace of `limit` calls. -/
def traceDecisionsFor (cfg : RLConfig) (b : String) : Store → List (String × Nat) → List Decision
  | _, [] => []
  | s, (ip, t) :: rest =>
      if ip = b then
        (limit cfg s ip t).1 :: traceDecisionsFor cfg b (limit cfg s ip t).2 rest
      else traceDecisionsFor cfg b (limit cfg s ip t).2 rest

/-- Stores reachable from the empty store by `limit` and `cleanup` calls at
non-decreasing times; the index is the time of the latest call. -/
inductive Reach (cfg : RLConfig) : Nat → Store → Prop
  | init : Reach cfg 0 []
  | step_limit {T s} (ip : String) (now : Nat) :
      Reach cfg T s → T ≤ now → Reach cfg now (limit cfg s ip now).2
  | step_cleanup {T s} (now : Nat) :
      Reach cfg T s → T ≤ now → Reach cfg now (cleanup cfg s now)

/-- Inductive invariant for one record at latest-call time `T`:
the counter is in `[1, maxRequests + 1]`, and a counter at
`maxRequests + 1` is justified by a block — either still recorded
(`blockedUntil = lastRequest + blockDurationMs`, the shape the blocking
branch writes) or already swept away after expiring no later than `T`. -/
def recInv (cfg : RLConfig) (T : Nat) (r : ClientRecord) : Prop :=
  1 ≤ r.count ∧
    (r.count ≤ cfg.maxRequests ∨
      (r.count = cfg.maxRequests + 1 ∧
        (r.blockedUntil = some (r.lastRequest + cfg.blockDurationMs) ∨
          (r.blockedUntil = none ∧ r.lastRequest + cfg.blockDurationMs ≤ T))))

/-- `recInv` for every entry of the store. -/
def storeInv (cfg : RLConfig) (T : Nat) (s : Store) : Prop :=
  ∀ p ∈ s, recInv cfg T p.2

/-! ### Store lemmas -/

theorem storeGet_storeSet_self (s : Store) (ip : String) (v : ClientRecord) :
    storeGet (storeSet s ip v) ip = some v := by
  induction s with
  | nil => simp [storeSet, storeGet]
  | cons p rest ih =>
    by_cases h : p.1 = ip
    · simp [storeSet, storeGet, h]
    · simp [storeSet, storeGet, h, ih]

theorem storeGet_storeSet_ne (s : Store) (ip k : String) (v : ClientRecord) (h : k ≠ ip) :
    storeGet (storeSet s ip v) k = storeGet s k := by
  induction s with
  | nil => simp [storeSet, storeGet, Ne.symm h]
  | cons p rest ih =>
    by_cases hp : p.1 = ip
    · simp [storeSet, storeGet, hp, Ne.symm h]
    · simp [storeSet, storeGet, hp, ih]

theorem storeSet_storeSet (s : Store) (ip : String) (v w : ClientRecord) :
    storeSet (storeSet s ip v) ip w = storeSet s ip w := by
  induction s with
  | nil => simp [storeSet]
  | cons p rest ih =>
    by_cases h : p.1 = ip
    · simp [storeSet, h]
    · simp [storeSet, h, ih]

theorem storeSet_eq_of_get (s : Store) (ip : String) (r : ClientRecord)
    (h : storeGet s ip = some r) : storeSet s ip r = s := by
  induction s with
  | nil => simp [storeGet] at h
  | cons p rest ih =>
    obtain ⟨a, b⟩ := p
    by_cases hp : a = ip
    · simp [storeGet, hp] at h
      simp [storeSet, hp, h]
    · simp [storeGet, hp] at h
      simp [storeSet, hp, ih h]

theorem length_storeSet_le (s : Store) (ip : String) (v : ClientRecord) :
    (storeSet s ip v).length ≤ s.length + 1 := by
  induction s with
  | nil => simp [storeSet]
  | cons p rest ih =>
    by_cases h : p.1 = ip
    · simp [storeSet, h]
    · simp only [storeSet, h, if_false, List.length_cons]
      omega

theorem mem_storeSet (s : Store) (ip : String) (v : ClientRecord) (q : String × ClientRecord)
    (h : q ∈ storeSet s ip v) : q = (ip, v) ∨ q ∈ s := by
  induction s with
  | nil => simpa [storeSet] using h
  | cons p rest ih =>
    by_cases hp : p.1 = ip
    · simp only [storeSet, hp, if_true] at h
      rcases List.mem_cons.mp h with h1 | h1
      · exact Or.inl h1
      · exact Or.inr (List.mem_cons_of_mem _ h1)
    · simp only [storeSet, hp, if_false] at h
      rcases List.mem_cons.mp h with h1 | h1
      · exact Or.inr (h1 ▸ List.mem_cons_self _ _)
      · rcases ih h1 with h2 | h2
        · exact Or.inl h2
        · exact Or.inr (List.mem_cons_of_mem _ h2)

theorem storeGet_some_mem (s : Store) (ip : String) (r : ClientRecord)
    (h : storeGet s ip = some r) : (ip, r) ∈ s := by
  induction s with
  | nil => simp [storeGet] at h
  | cons p rest ih =>
    by_cases hp : p.1 = ip
    · simp [storeGet, hp] at h
      exact List.mem_cons.mpr (Or.inl (by rw [← hp, ← h]))
    · simp [storeGet, hp] at h
      exact List.mem_cons_of_mem _ (ih h)

/-! ### Characterization of `limit` through `limitStep` -/

theorem finishLimit_set (cfg : RLConfig) (s : Store) (ip : String) (now : Nat)
    (v : ClientRecord) :
    finishLimit cfg (storeSet s ip v) ip now =
      if cfg.maxRequests < v.count then
        (Decision.rejected (ceilDivSec cfg.blockDurationMs),
         storeSet s ip ⟨v.count, v.lastRequest, some (now + cfg.blockDurationMs)⟩)
      else (Decision.admitted, storeSet s ip v) := by
  simp only [finishLimit, storeGet_storeSet_self]
  by_cases h : cfg.maxRequests < v.count
  · simp [h, storeSet_storeSet]
  · simp [h]

/-- `limit` acts on the store exactly by writing the record `limitStep`
computes back at the client's key (a blocked-path "write" of the unchanged
record is a no-op by `storeSet_eq_of_get`). -/
theorem limit_eq_step (cfg : RLConfig) (s : Store) (ip : String) (now : Nat) :
    limit cfg s ip now =
      ((limitStep cfg now (storeGet s ip)).1,
       storeSet s ip (limitStep cfg now (storeGet s ip)).2) := by
  rcases hget : storeGet s ip with _ | client
  · simp only [limit, hget, limitStep, finishLimit_set]
    by_cases h : cfg.maxRequests < 1 <;> simp [h]
  · rcases hbu : client.blockedUntil with _ | bu
    · simp only [limit, hget, hbu, limitStep, finishLimit_set]
      by_cases h : cfg.maxRequests < (applyCount cfg now client).count <;> simp [h]
    · by_cases hb : bu ≠ 0 ∧ now < bu
      · simp only [limit, hget, hbu, limitStep, if_pos hb]
        exact Prod.ext rfl (storeSet_eq_of_get s ip client hget).symm
      · simp only [limit, hget, hbu, limitStep, if_neg hb, finishLimit_set]
        by_cases h : cfg.maxRequests < (applyCount cfg now client).count <;> simp [h]

theorem limit_fst (cfg : RLConfig) (s : Store) (ip : String) (now : Nat) :
    (limit cfg s ip now).1 = (limitStep cfg now (storeGet s ip)).1 := by
  rw [limit_eq_step]

theorem limit_get (cfg : RLConfig) (s : Store) (ip : String) (now : Nat) :
    storeGet (limit cfg s ip now).2 ip = some (limitStep cfg now (storeGet s ip)).2 := by
  rw [limit_eq_step]
  exact storeGet_storeSet_self _ _ _

theorem limit_frame (cfg : RLConfig) (s : Store) (ip k : String) (now : Nat) (h : k ≠ ip) :
    storeGet (limit cfg s ip now).2 k = storeGet s k := by
  rw [limit_eq_step]
  exact storeGet_storeSet_ne _ _ _ _ h

/-! ### Runs of admitted calls within a window -/

theorem getLast?_cons_getLastD {α : Type _} (l : List α) (a : α) :
    (a :: l).getLast? = some (l.getLastD a) := by
  induction l generalizing a with
  | nil => rfl
  | cons b l ih => rw [List.getLastD_cons, List.getLast?_cons_cons]; exact ih b

/-- Starting from a present, unblocked record, a run of calls each within
`windowMs` of its predecessor and keeping the counter at or below
`maxRequests` is fully admitted and just counts up. -/
theorem run_within_window (cfg : RLConfig) (ip : String) (ts : List Nat) :
    ∀ (s : Store) (c tprev : Nat),
      storeGet s ip = some ⟨c, tprev, none⟩ →
      List.Chain (fun a b => b - a ≤ cfg.windowMs) tprev ts →
      c + ts.length ≤ cfg.maxRequests →
      admitAll cfg ip s ts = true ∧
      storeGet (runStore cfg ip s ts) ip = some ⟨c + ts.length, ts.getLastD tprev, none⟩ := by
  induction ts with
  | nil =>
    intro s c tprev hs _ _
    simpa [admitAll, runStore] using hs
  | cons t ts ih =>
    intro s c tprev hs hchain hlen
    rcases List.chain_cons.mp hchain with ⟨hgap, hchain'⟩
    have hng : ¬ (cfg.windowMs < t - tprev) := Nat.not_lt.mpr hgap
    have hnc : ¬ (cfg.maxRequests < c + 1) := by
      simp only [List.length_cons] at hlen; omega
    have hlim : limit cfg s ip t = (Decision.admitted, storeSet s ip ⟨c + 1, t, none⟩) := by
      rw [limit_eq_step, hs]
      simp [limitStep, applyCount, hng, hnc]
    have hs' : storeGet (storeSet s ip ⟨c + 1, t, none⟩) ip = some ⟨c + 1, t, none⟩ :=
      storeGet_storeSet_self _ _ _
    have hlen' : (c + 1) + ts.length ≤ cfg.maxRequests := by
      simp only [List.length_cons] at hlen; omega
    obtain ⟨hadm, hget⟩ := ih _ _ _ hs' hchain' hlen'
    refine ⟨?_, ?_⟩
    · simp [admitAll, hlim, hadm]
    · simp only [runStore, hlim, List.length_cons, List.getLastD_cons]
      have he : c + (ts.length + 1) = c + 1 + ts.length := by omega
      rw [he]; exact hget

/-- C1: for every client identifier and every sequence of at most
`maxRequests` `limit` calls from a client with no prior record, in which
each call is within one `windowMs` of the previous one, every call is
admitted (the middleware calls `next()` and sends no 429). -/
theorem C1_within_limit_all_admitted (cfg : RLConfig) (ip : String) (s : Store)
    (ts : List Nat)
    (hs : storeGet s ip = none)
    (hchain : List.Chain' (fun a b => b - a ≤ cfg.windowMs) ts)
    (hlen : ts.length ≤ cfg.maxRequests) :
    admitAll cfg ip s ts = true := by
  cases ts with
  | nil => rfl
  | cons t0 ts =>
    have hchain' : List.Chain (fun a b => b - a ≤ cfg.windowMs) t0 ts := hchain
    have hnc : ¬ (cfg.maxRequests < 1) := by
      simp only [List.length_cons] at hlen; omega
    have hlim : limit cfg s ip t0 = (Decision.admitted, storeSet s ip ⟨1, t0, none⟩) := by
      rw [limit_eq_step, hs]
      simp [limitStep, hnc]
    have hlen' : 1 + ts.length ≤ cfg.maxRequests := by
      simp only [List.length_cons] at hlen; omega
    obtain ⟨hadm, _⟩ :=
      run_within_window cfg ip ts (storeSet s ip ⟨1, t0, none⟩) 1 t0
        (storeGet_storeSet_self _ _ _) hchain' hlen'
    simp [admitAll, hlim, hadm]

theorem chainWitness :
    List.Chain' (fun a b => b - a ≤ transactionRateLimiterConfig.windowMs) [0, 100, 200] := by
  simp [List.chain'_cons, List.chain'_singleton, transactionRateLimiterConfig]

theorem C1_witness :
    storeGet [] "A" = none ∧
    List.Chain' (fun a b => b - a ≤ transactionRateLimiterConfig.windowMs) [0, 100, 200] ∧
    [0, 100, 200].length ≤ transactionRateLimiterConfig.maxRequests ∧
    admitAll transactionRateLimiterConfig "A" [] [0, 100, 200] = true :=
  ⟨rfl, chainWitness, by decide,
    C1_within_limit_all_admitted transactionRateLimiterConfig "A" [] [0, 100, 200]
      rfl chainWitness (by decide)⟩

/-- C2: starting with no record, after `maxRequests` calls within one
window, the (`maxRequests`+1)-th call from the same client within the
window is rejected with `retryAfter = ceil(blockDurationMs / 1000)` and
sets the client's `blockedUntil` to `now + blockDurationMs`. -/
theorem C2_threshold_call_blocked (cfg : RLConfig) (ip : String) (s : Store)
    (ts : List Nat) (tlast : Nat)
    (hs : storeGet s ip = none)
    (hchain : List.Chain' (fun a b => b - a ≤ cfg.windowMs) (ts ++ [tlast]))
    (hlen : ts.length = cfg.maxRequests) :
    (limit cfg (runStore cfg ip s ts) ip tlast).1
        = Decision.rejected (ceilDivSec cfg.blockDurationMs)
    ∧ storeGet (limit cfg (runStore cfg ip s ts) ip tlast).2 ip
        = some ⟨cfg.maxRequests + 1, tlast, some (tlast + cfg.blockDurationMs)⟩ := by
  cases ts with
  | nil =>
    have hmax : cfg.maxRequests = 0 := hlen.symm
    have hlim : limitStep cfg tlast (storeGet (runStore cfg ip s []) ip)
        = (Decision.rejected (ceilDivSec cfg.blockDurationMs),
           ⟨1, tlast, some (tlast + cfg.blockDurationMs)⟩) := by
      simp [runStore, hs, limitStep, hmax]
    refine ⟨?_, ?_⟩
    · rw [limit_fst, hlim]
    · rw [limit_get, hlim, hmax]
  | cons t0 ts' =>
    rcases List.chain'_append.mp hchain with ⟨hchain1, _, hlink⟩
    have hgaplast : tlast - ts'.getLastD t0 ≤ cfg.windowMs := by
      have := hlink (ts'.getLastD t0) (by rw [getLast?_cons_getLastD]; rfl) tlast rfl
      exact this
    have hchain0 : List.Chain (fun a b => b - a ≤ cfg.windowMs) t0 ts' := hchain1
    have hone : 1 ≤ cfg.maxRequests := by
      simp only [List.length_cons] at hlen; omega
    have hnc : ¬ (cfg.maxRequests < 1) := by omega
    have hlim0 : limit cfg s ip t0 = (Decision.admitted, storeSet s ip ⟨1, t0, none⟩) := by
      rw [limit_eq_step, hs]
      simp [limitStep, hnc]
    have hlen' : 1 + ts'.length ≤ cfg.maxRequests := by
      simp only [List.length_cons] at hlen; omega
    obtain ⟨_, hget⟩ :=
      run_within_window cfg ip ts' (storeSet s ip ⟨1, t0, none⟩) 1 t0
        (storeGet_storeSet_self _ _ _) hchain0 hlen'
    have hcount : 1 + ts'.length = cfg.maxRequests := by
      simp only [List.length_cons] at hlen; omega
    have hrun : storeGet (runStore cfg ip s (t0 :: ts')) ip
        = some ⟨cfg.maxRequests, ts'.getLastD t0, none⟩ := by
      simp only [runStore, hlim0]
      rw [← hcount]; exact hget
    have hng : ¬ (cfg.windowMs < tlast - ts'.getLastD t0) := Nat.not_lt.mpr hgaplast
    have hstep : limitStep cfg tlast (storeGet (runStore cfg ip s (t0 :: ts')) ip)
        = (Decision.rejected (ceilDivSec cfg.blockDurationMs),
           ⟨cfg.maxRequests + 1, tlast, some (tlast + cfg.blockDurationMs)⟩) := by
      rw [hrun]
      simp only [limitStep, applyCount, if_neg hng]
      rw [if_pos (Nat.lt_succ_self cfg.maxRequests)]
    exact ⟨by rw [limit_fst, hstep], by rw [limit_get, hstep]⟩

theorem C2_witness :
    (limit transactionRateLimiterConfig
        (runStore transactionRateLimiterConfig "A" []
          [0, 1, 2, 3, 4, 5, 6, 7, 8, 9]) "A" 10).1
      = Decision.rejected (ceilDivSec transactionRateLimiterConfig.blockDurationMs)
    ∧ storeGet (limit transactionRateLimiterConfig
        (runStore transactionRateLimiterConfig "A" []
          [0, 1, 2, 3, 4, 5, 6, 7, 8, 9]) "A" 10).2 "A"
      = some ⟨transactionRateLimiterConfig.maxRequests + 1, 10,
              some (10 + transactionRateLimiterConfig.blockDurationMs)⟩ :=
  C2_threshold_call_blocked transactionRateLimiterConfig "A" []
    [0, 1, 2, 3, 4, 5, 6, 7, 8, 9] 10 rfl
    (by simp [List.chain'_cons, List.chain'_singleton, transactionRateLimiterConfig])
    (by decide)

/-- C3: a call from a client whose record carries a future `blockedUntil`
is rejected with `retryAfter = ceil((blockedUntil - now) / 1000)` and the
store (hence the client's `count`, `lastRequest` and `blockedUntil`) is
left completely unchanged; across such calls at non-decreasing times the
reported `retryAfter` values are non-increasing. -/
theorem C3_blocked_rejected_unchanged (cfg : RLConfig) (s : Store) (ip : String)
    (r : ClientRecord) (bu : Nat)
    (hr : storeGet s ip = some r) (hbu : r.blockedUntil = some bu) :
    (∀ now, now < bu →
      limit cfg s ip now = (Decision.rejected (ceilDivSec (bu - now)), s))
    ∧ (∀ n1 n2 a1 a2, n1 ≤ n2 → n2 < bu →
        (limit cfg s ip n1).1 = Decision.rejected a1 →
        (limit cfg s ip n2).1 = Decision.rejected a2 → a2 ≤ a1) := by
  have hone : ∀ now, now < bu → limit cfg s ip now
      = (Decision.rejected (ceilDivSec (bu - now)), s) := by
    intro now hlt
    have hb : bu ≠ 0 ∧ now < bu := ⟨by omega, hlt⟩
    simp [limit, hr, hbu, hb]
  refine ⟨hone, ?_⟩
  intro n1 n2 a1 a2 h12 h2 ha1 ha2
  have e1 : (limit cfg s ip n1).1 = Decision.rejected (ceilDivSec (bu - n1)) := by
    rw [hone n1 (by omega)]
  have e2 : (limit cfg s ip n2).1 = Decision.rejected (ceilDivSec (bu - n2)) := by
    rw [hone n2 h2]
  rw [e1] at ha1
  rw [e2] at ha2
  have hv1 : a1 = ceilDivSec (bu - n1) := by
    cases ha1; rfl
  have hv2 : a2 = ceilDivSec (bu - n2) := by
    cases ha2; rfl
  rw [hv1, hv2]
  exact Nat.div_le_div_right (Nat.add_le_add_right (Nat.sub_le_sub_left h12 bu) 999)

theorem C3_witness :
    limit transactionRateLimiterConfig
        [("A", ⟨11, 0, some 3600000⟩)] "A" 500
      = (Decision.rejected (ceilDivSec (3600000 - 500)),
         [("A", ⟨11, 0, some 3600000⟩)]) :=
  (C3_blocked_rejected_unchanged transactionRateLimiterConfig
      [("A", ⟨11, 0, some 3600000⟩)] "A" ⟨11, 0, some 3600000⟩ 3600000
      rfl rfl).1 500 (by decide)

/-- C4 counterexample: with `maxRequests = 1`, `windowMs = 100`,
`blockDurationMs = 10` (a block shorter than the window), a client blocked
at time 0 until time 10 makes its next call at time 10, after the block
has elapsed; the claim says this call is treated as a fresh window
(`count` reset to 1, Admitted), but the code increments the counter to 3
(the gap 10 is within the window 100) and rejects the call again. -/
theorem C4_counterexample :
    (limit ⟨1, 100, 10, 5000⟩
        (limit ⟨1, 100, 10, 5000⟩
          (limit ⟨1, 100, 10, 5000⟩ [] "a" 0).2 "a" 0).2 "a" 10).1
      ≠ Decision.admitted
    ∧ (storeGet (limit ⟨1, 100, 10, 5000⟩
        (limit ⟨1, 100, 10, 5000⟩
          (limit ⟨1, 100, 10, 5000⟩ [] "a" 0).2 "a" 0).2 "a" 10).2 "a").map
        ClientRecord.count
      = some 3 := by
  decide

/-- C4 (amended): under the deployed-style precondition
`windowMs < blockDurationMs` and `maxRequests ≥ 1`, once the
`blockedUntil` written by the blocking branch
(`lastRequest + blockDurationMs`) has elapsed, the next call from that
client is treated as a fresh window: its `count` is reset to 1 and the
call is admitted (the stale `blockedUntil` value stays in the record; it
is no longer active). -/
theorem C4_block_expiry_resets (cfg : RLConfig) (s : Store) (ip : String)
    (r : ClientRecord) (now : Nat)
    (hw : cfg.windowMs < cfg.blockDurationMs)
    (hmax : 1 ≤ cfg.maxRequests)
    (hr : storeGet s ip = some r)
    (hbu : r.blockedUntil = some (r.lastRequest + cfg.blockDurationMs))
    (hnow : r.lastRequest + cfg.blockDurationMs ≤ now) :
    (limit cfg s ip now).1 = Decision.admitted
    ∧ storeGet (limit cfg s ip now).2 ip
        = some ⟨1, now, some (r.lastRequest + cfg.blockDurationMs)⟩ := by
  obtain ⟨c, lr, bu0⟩ := r
  simp only at hbu hnow
  subst hbu
  have hnotactive : ¬ (lr + cfg.blockDurationMs ≠ 0 ∧ now < lr + cfg.blockDurationMs) := by
    omega
  have hgap : cfg.windowMs < now - lr := by omega
  have hnc : ¬ (cfg.maxRequests < 1) := by omega
  have hstep : limitStep cfg now (storeGet s ip)
      = (Decision.admitted, ⟨1, now, some (lr + cfg.blockDurationMs)⟩) := by
    rw [hr]
    simp [limitStep, applyCount, hnotactive, hgap, hnc]
    omega
  exact ⟨by rw [limit_fst, hstep], by rw [limit_get, hstep]⟩

theorem C4_witness :
    (limit transactionRateLimiterConfig [("A", ⟨11, 0, some 3600000⟩)] "A" 3600000).1
      = Decision.admitted
    ∧ storeGet (limit transactionRateLimiterConfig
        [("A", ⟨11, 0, some 3600000⟩)] "A" 3600000).2 "A"
      = some ⟨1, 3600000, some 3600000⟩ :=
  C4_block_expiry_resets transactionRateLimiterConfig
    [("A", ⟨11, 0, some 3600000⟩)] "A" ⟨11, 0, some 3600000⟩ 3600000
    (by decide) (by decide) rfl rfl (by decide)

/-- For a present record with no active block, the stored record after a
`limit` call has the window-updated counter and `lastRequest = now`,
whatever the threshold check then decides. -/
theorem limitStep_record_update (cfg : RLConfig) (now : Nat) (r : ClientRecord)
    (hnb : ∀ bu, r.blockedUntil = some bu → bu ≤ now) :
    (limitStep cfg now (some r)).2.count
        = (if cfg.windowMs < now - r.lastRequest then 1 else r.count + 1)
    ∧ (limitStep cfg now (some r)).2.lastRequest = now := by
  obtain ⟨c, lr, bu0⟩ := r
  rcases bu0 with _ | bu
  · simp only [limitStep, applyCount]
    by_cases hwin : cfg.windowMs < now - lr
    · simp only [hwin, if_true]
      by_cases hth : cfg.maxRequests < 1 <;> simp [hth]
    · simp only [hwin, if_false]
      by_cases hth : cfg.maxRequests < c + 1 <;> simp [hth]
  · have hble : bu ≤ now := hnb bu rfl
    have hna : ¬ (bu ≠ 0 ∧ now < bu) := by omega
    simp only [limitStep, applyCount, if_neg hna]
    by_cases hwin : cfg.windowMs < now - lr
    · simp only [hwin, if_true]
      by_cases hth : cfg.maxRequests < 1 <;> simp [hth]
    · simp only [hwin, if_false]
      by_cases hth : cfg.maxRequests < c + 1 <;> simp [hth]

/-- C5: on a call from a client with an existing record and no active
block, the counter is reset to 1 when `now - lastRequest > windowMs` and
incremented otherwise, and `lastRequest` becomes `now` in both branches. -/
theorem C5_window_reset_or_increment (cfg : RLConfig) (s : Store) (ip : String)
    (r : ClientRecord) (now : Nat)
    (hr : storeGet s ip = some r)
    (hnb : ∀ bu, r.blockedUntil = some bu → bu ≤ now) :
    ∃ r', storeGet (limit cfg s ip now).2 ip = some r'
      ∧ r'.count = (if cfg.windowMs < now - r.lastRequest then 1 else r.count + 1)
      ∧ r'.lastRequest = now := by
  have hget := limit_get cfg s ip now
  rw [hr] at hget
  obtain ⟨h1, h2⟩ := limitStep_record_update cfg now r hnb
  exact ⟨(limitStep cfg now (some r)).2, hget, h1, h2⟩

theorem C5_witness :
    ∃ r', storeGet (limit transactionRateLimiterConfig
        [("A", ⟨3, 0, none⟩)] "A" 50).2 "A" = some r'
      ∧ r'.count = (if transactionRateLimiterConfig.windowMs < 50 - 0 then 1 else 3 + 1)
      ∧ r'.lastRequest = 50 :=
  C5_window_reset_or_increment transactionRateLimiterConfig
    [("A", ⟨3, 0, none⟩)] "A" ⟨3, 0, none⟩ 50 rfl
    (fun bu h => absurd h (by simp))

/-- C7: the client identifier is the first comma-separated value of the
forwarded header when present (trimmed; the socket address is then
ignored), else the socket peer address, else the fixed fallback
`"unknown"`; and no request is ever rejected for a malformed or absent
identifier — after any middleware call the derived identifier (fallback
included) is tracked in the store. -/
theorem C7_client_identifier :
    (∀ fwd ra, getClientIp ⟨some fwd, ra⟩ = firstForwarded fwd)
    ∧ (∀ fwd ra, getClientIp ⟨some fwd, ra⟩ = getClientIp ⟨some fwd, none⟩)
    ∧ (∀ ra, ra ≠ "" → getClientIp ⟨none, some ra⟩ = ra)
    ∧ getClientIp ⟨none, none⟩ = "unknown"
    ∧ getClientIp ⟨some "1.2.3.4, 5.6.7.8", none⟩ = "1.2.3.4"
    ∧ (∀ cfg s req now,
        storeGet (limitRequest cfg s req now).2 (getClientIp req) ≠ none) := by
  refine ⟨fun fwd ra => rfl, fun fwd ra => rfl, ?_, rfl, by decide, ?_⟩
  · intro ra hra
    simp [getClientIp, hra]
  · intro cfg s req now
    simp [limitRequest, limit_get]

theorem C7_witness :
    getClientIp ⟨some "1.2.3.4, 5.6.7.8", some "9.9.9.9"⟩
        = firstForwarded "1.2.3.4, 5.6.7.8"
    ∧ getClientIp ⟨none, some "9.9.9.9"⟩ = "9.9.9.9"
    ∧ getClientIp ⟨none, none⟩ = "unknown"
    ∧ storeGet (limitRequest transactionRateLimiterConfig [] ⟨none, none⟩ 0).2
        (getClientIp ⟨none, none⟩) ≠ none :=
  ⟨C7_client_identifier.1 "1.2.3.4, 5.6.7.8" (some "9.9.9.9"),
   C7_client_identifier.2.2.1 "9.9.9.9" (by decide),
   C7_client_identifier.2.2.2.1,
   C7_client_identifier.2.2.2.2.2 transactionRateLimiterConfig [] ⟨none, none⟩ 0⟩

/-- Locality of traces: if two stores agree on client `b`'s record, then a
trace run on the first and its `b`-only sub-trace run on the second give
`b` the same decisions and the same final record. -/
theorem trace_local (cfg : RLConfig) (b : String) (trace : List (String × Nat)) :
    ∀ s1 s2 : Store, storeGet s1 b = storeGet s2 b →
      traceDecisionsFor cfg b s1 trace
          = traceDecisions cfg s2 (trace.filter (fun c => decide (c.1 = b)))
      ∧ storeGet (traceStore cfg s1 trace) b
          = storeGet (traceStore cfg s2 (trace.filter (fun c => decide (c.1 = b)))) b := by
  induction trace with
  | nil => intro s1 s2 h; exact ⟨rfl, h⟩
  | cons c rest ih =>
    obtain ⟨ip, t⟩ := c
    intro s1 s2 h
    by_cases hip : ip = b
    · subst hip
      have hd : (limit cfg s1 ip t).1 = (limit cfg s2 ip t).1 := by
        rw [limit_fst, limit_fst, h]
      have hg : storeGet (limit cfg s1 ip t).2 ip = storeGet (limit cfg s2 ip t).2 ip := by
        rw [limit_get, limit_get, h]
      obtain ⟨ihd, ihs⟩ := ih (limit cfg s1 ip t).2 (limit cfg s2 ip t).2 hg
      constructor
      · simp only [traceDecisionsFor, traceDecisions, List.filter_cons, if_pos, decide_True,
          if_true, ihd, hd]
      · simp only [traceStore, List.filter_cons, decide_True, if_true, ihs]
    · have hg : storeGet (limit cfg s1 ip t).2 b = storeGet s2 b := by
        rw [limit_frame cfg s1 ip b t (Ne.symm hip)]; exact h
      obtain ⟨ihd, ihs⟩ := ih (limit cfg s1 ip t).2 s2 hg
      constructor
      · simp [traceDecisionsFor, if_neg hip, List.filter_cons, hip, ihd]
      · simp [traceStore, List.filter_cons, hip, ihs]

/-- C8: in every interleaved trace of `limit` calls, the decisions handed
to a client `b` and `b`'s final record are the same as if the other
clients' calls had never occurred (running only `b`'s calls from the same
initial store): each client is tracked and limited independently. -/
theorem C8_client_independence (cfg : RLConfig) (s : Store) (b : String)
    (trace : List (String × Nat)) :
    traceDecisionsFor cfg b s trace
        = traceDecisions cfg s (trace.filter (fun c => decide (c.1 = b)))
    ∧ storeGet (traceStore cfg s trace) b
        = storeGet (traceStore cfg s (trace.filter (fun c => decide (c.1 = b)))) b :=
  trace_local cfg b trace s s rfl

/-- C10: a `limit` call never deletes entries and touches at most the one
entry keyed by the addressed client (all other records unchanged, store
grows by at most one entry); only `cleanup` removes entries, the store can
grow beyond `maxEntries` between sweeps (concrete two-client run with
`maxEntries = 1`), and the `maxEntries` bound holds immediately after
every sweep. -/
theorem C10_limit_frame_cleanup_bound (cfg : RLConfig) :
    (∀ s ip now k, storeGet s k ≠ none → storeGet (limit cfg s ip now).2 k ≠ none)
    ∧ (∀ s ip now k, k ≠ ip → storeGet (limit cfg s ip now).2 k = storeGet s k)
    ∧ (∀ s ip now, (limit cfg s ip now).2.length ≤ s.length + 1)
    ∧ (∀ s now, (cleanup cfg s now).length ≤ cfg.maxEntries)
    ∧ (⟨10, 60000, 3600000, 1⟩ : RLConfig).maxEntries
        < (limit ⟨10, 60000, 3600000, 1⟩
            (limit ⟨10, 60000, 3600000, 1⟩ [] "a" 0).2 "b" 0).2.length := by
  refine ⟨?_, ?_, ?_, ?_, by decide⟩
  · intro s ip now k h
    by_cases hk : k = ip
    · subst hk
      rw [limit_get]
      simp
    · rw [limit_frame cfg s ip k now hk]
      exact h
  · intro s ip now k hk
    exact limit_frame cfg s ip k now hk
  · intro s ip now
    rw [limit_eq_step]
    exact length_storeSet_le _ _ _
  · intro s now
    simp only [cleanup, List.length_map]
    have hperm := List.perm_insertionSort entryLe s
    have hlen : (s.filter (fun p => decide (p.1 ∉
        ((List.insertionSort entryLe s).drop cfg.maxEntries).map Prod.fst))).length
        = ((List.insertionSort entryLe s).filter (fun p => decide (p.1 ∉
        ((List.insertionSort entryLe s).drop cfg.maxEntries).map Prod.fst))).length :=
      (List.Perm.filter _ hperm).length_eq.symm
    rw [hlen]
    set P : String × ClientRecord → Bool := fun p => decide (p.1 ∉
      ((List.insertionSort entryLe s).drop cfg.maxEntries).map Prod.fst) with hP
    set l := List.insertionSort entryLe s with hl
    have hsplit : l = l.take cfg.maxEntries ++ l.drop cfg.maxEntries :=
      (List.take_append_drop _ _).symm
    have hdrop : (l.drop cfg.maxEntries).filter P = [] := by
      apply List.filter_eq_nil_iff.mpr
      intro q hq
      simp only [hP, decide_eq_true_eq, Decidable.not_not]
      exact List.mem_map_of_mem Prod.fst hq
    calc (l.filter P).length
        = ((l.take cfg.maxEntries).filter P ++ (l.drop cfg.maxEntries).filter P).length := by
          rw [← List.filter_append, ← hsplit]
      _ = ((l.take cfg.maxEntries).filter P).length := by rw [hdrop]; simp
      _ ≤ (l.take cfg.maxEntries).length := List.length_filter_le _ _
      _ ≤ cfg.maxEntries := List.length_take_le _ _

theorem C10_witness :
    storeGet [("A", ⟨1, 0, none⟩)] "A" ≠ none
    ∧ storeGet (limit transactionRateLimiterConfig
        [("A", ⟨1, 0, none⟩)] "B" 5).2 "A" ≠ none
    ∧ storeGet (limit transactionRateLimiterConfig
        [("A", ⟨1, 0, none⟩)] "B" 5).2 "A" = storeGet [("A", ⟨1, 0, none⟩)] "A"
    ∧ (limit transactionRateLimiterConfig [("A", ⟨1, 0, none⟩)] "B" 5).2.length
        ≤ ([("A", ⟨1, 0, none⟩)] : Store).length + 1
    ∧ (cleanup transactionRateLimiterConfig [("A", ⟨1, 0, none⟩)] 5).length
        ≤ transactionRateLimiterConfig.maxEntries :=
  ⟨by decide,
   (C10_limit_frame_cleanup_bound transactionRateLimiterConfig).1
     ([("A", ⟨1, 0, none⟩)] : Store) "B" 5 "A" (by decide),
   (C10_limit_frame_cleanup_bound transactionRateLimiterConfig).2.1
     ([("A", ⟨1, 0, none⟩)] : Store) "B" 5 "A" (by decide),
   (C10_limit_frame_cleanup_bound transactionRateLimiterConfig).2.2.1
     ([("A", ⟨1, 0, none⟩)] : Store) "B" 5,
   (C10_limit_frame_cleanup_bound transactionRateLimiterConfig).2.2.2.1
     ([("A", ⟨1, 0, none⟩)] : Store) 5⟩

/-! ### The counter invariant (C9) -/

theorem recInv_mono (cfg : RLConfig) (T T' : Nat) (r : ClientRecord)
    (h : recInv cfg T r) (hle : T ≤ T') : recInv cfg T' r := by
  obtain ⟨h1, h2⟩ := h
  refine ⟨h1, ?_⟩
  rcases h2 with h | ⟨hc, hb | ⟨hn, ht⟩⟩
  · exact Or.inl h
  · exact Or.inr ⟨hc, Or.inl hb⟩
  · exact Or.inr ⟨hc, Or.inr ⟨hn, le_trans ht hle⟩⟩

theorem recInv_mk (cfg : RLConfig) (T c lr : Nat) (bu : Option Nat)
    (h1 : 1 ≤ c)
    (h2 : c ≤ cfg.maxRequests ∨
      (c = cfg.maxRequests + 1 ∧
        (bu = some (lr + cfg.blockDurationMs) ∨
          (bu = none ∧ lr + cfg.blockDurationMs ≤ T)))) :
    recInv cfg T ⟨c, lr, bu⟩ := ⟨h1, h2⟩

theorem recInv_limitStep (cfg : RLConfig) (T now : Nat) (c? : Option ClientRecord)
    (hw : cfg.windowMs < cfg.blockDurationMs) (hT : T ≤ now)
    (hc : ∀ r, c? = some r → recInv cfg T r) :
    recInv cfg now (limitStep cfg now c?).2 := by
  rcases c? with _ | r
  · by_cases hth : cfg.maxRequests < 1
    · simp only [limitStep, if_pos hth]
      exact recInv_mk cfg now 1 now _ (le_refl 1) (Or.inr ⟨by omega, Or.inl rfl⟩)
    · simp only [limitStep, if_neg hth]
      exact recInv_mk cfg now 1 now _ (le_refl 1) (Or.inl (by omega))
  · obtain ⟨h1, h2⟩ := hc r rfl
    obtain ⟨c, lr, bu0⟩ := r
    simp only at h1 h2
    rcases bu0 with _ | bu
    · -- no block on record: update path
      simp only [limitStep, applyCount]
      by_cases hwin : cfg.windowMs < now - lr
      · simp only [hwin, if_true]
        by_cases hth : cfg.maxRequests < 1
        · simp only [if_pos hth]
          exact recInv_mk cfg now 1 now _ (le_refl 1) (Or.inr ⟨by omega, Or.inl rfl⟩)
        · simp only [if_neg hth]
          exact recInv_mk cfg now 1 now _ (le_refl 1) (Or.inl (by omega))
      · simp only [hwin, if_false]
        have hcle : c ≤ cfg.maxRequests := by
          rcases h2 with h | ⟨hcc, hb | ⟨hn, ht⟩⟩
          · exact h
          · exact absurd hb (by simp)
          · omega
        by_cases hth : cfg.maxRequests < c + 1
        · simp only [if_pos hth]
          exact recInv_mk cfg now (c + 1) now _ (by omega) (Or.inr ⟨by omega, Or.inl rfl⟩)
        · simp only [if_neg hth]
          exact recInv_mk cfg now (c + 1) now _ (by omega) (Or.inl (by omega))
    · -- record carries a blockedUntil value
      by_cases hact : bu ≠ 0 ∧ now < bu
      · simp only [limitStep, if_pos hact]
        exact recInv_mono cfg T now ⟨c, lr, some bu⟩ ⟨h1, h2⟩ hT
      · simp only [limitStep, if_neg hact, applyCount]
        by_cases hwin : cfg.windowMs < now - lr
        · simp only [hwin, if_true]
          by_cases hth : cfg.maxRequests < 1
          · simp only [if_pos hth]
            exact recInv_mk cfg now 1 now _ (le_refl 1) (Or.inr ⟨by omega, Or.inl rfl⟩)
          · simp only [if_neg hth]
            exact recInv_mk cfg now 1 now _ (le_refl 1) (Or.inl (by omega))
        · simp only [hwin, if_false]
          have hcle : c ≤ cfg.maxRequests := by
            rcases h2 with h | ⟨hcc, hb | ⟨hn, ht⟩⟩
            · exact h
            · -- still-recorded block: bu = lr + blockDurationMs, not active,
              -- so it expired and the gap exceeds the window: contradiction
              simp only [Option.some.injEq] at hb
              omega
            · exact absurd hn (by simp)
          by_cases hth : cfg.maxRequests < c + 1
          · simp only [if_pos hth]
            exact recInv_mk cfg now (c + 1) now _ (by omega) (Or.inr ⟨by omega, Or.inl rfl⟩)
          · simp only [if_neg hth]
            exact recInv_mk cfg now (c + 1) now _ (by omega) (Or.inl (by omega))

theorem storeInv_limit (cfg : RLConfig) (T now : Nat) (s : Store) (ip : String)
    (hw : cfg.windowMs < cfg.blockDurationMs) (hT : T ≤ now)
    (hs : storeInv cfg T s) : storeInv cfg now (limit cfg s ip now).2 := by
  intro p hp
  rw [limit_eq_step] at hp
  rcases mem_storeSet s ip _ p hp with hpv | hpold
  · rw [hpv]
    apply recInv_limitStep cfg T now (storeGet s ip) hw hT
    intro r hr
    exact hs (ip, r) (storeGet_some_mem s ip r hr)
  · exact recInv_mono cfg T now p.2 (hs p hpold) hT

theorem storeInv_cleanup (cfg : RLConfig) (T now : Nat) (s : Store)
    (hT : T ≤ now) (hs : storeInv cfg T s) :
    storeInv cfg now (cleanup cfg s now) := by
  intro p hp
  simp only [cleanup, List.mem_map] at hp
  obtain ⟨q, hq, hpq⟩ := hp
  have hqs : q ∈ s := List.mem_of_mem_filter hq
  have hqi : recInv cfg now q.2 := recInv_mono cfg T now q.2 (hs q hqs) hT
  subst hpq
  obtain ⟨qk, qc, qlr, qbu⟩ := q
  rcases qbu with _ | bu
  · simpa [clearExpired] using hqi
  · by_cases hcond : bu ≠ 0 ∧ bu ≤ now
    · simp only [clearExpired, if_pos hcond]
      obtain ⟨h1, h2⟩ := hqi
      simp only at h1 h2
      apply recInv_mk cfg now qc qlr none h1
      rcases h2 with h | ⟨hcc, hb | ⟨hn, _⟩⟩
      · exact Or.inl h
      · simp only [Option.some.injEq] at hb
        exact Or.inr ⟨hcc, Or.inr ⟨rfl, by omega⟩⟩
      · exact absurd hn (by simp)
    · simpa [clearExpired, if_neg hcond] using hqi

theorem reach_storeInv (cfg : RLConfig) (hw : cfg.windowMs < cfg.blockDurationMs) :
    ∀ T s, Reach cfg T s → storeInv cfg T s := by
  intro T s h
  induction h with
  | init => intro p hp; cases hp
  | step_limit ip now _ hle ih => exact storeInv_limit cfg _ now _ ip hw hle ih
  | step_cleanup now _ hle ih => exact storeInv_cleanup cfg _ now _ hle ih

/-- C9: under `blockDurationMs > windowMs`, in every store reachable from
the empty store by `limit` and `cleanup` calls at non-decreasing times,
every stored record has `1 ≤ count ≤ maxRequests + 1`. -/
theorem C9_counter_bounded (cfg : RLConfig) (T : Nat) (s : Store)
    (hw : cfg.windowMs < cfg.blockDurationMs) (hreach : Reach cfg T s)
    (p : String × ClientRecord) (hp : p ∈ s) :
    1 ≤ p.2.count ∧ p.2.count ≤ cfg.maxRequests + 1 := by
  obtain ⟨h1, h2⟩ := reach_storeInv cfg hw T s hreach p hp
  refine ⟨h1, ?_⟩
  rcases h2 with h | ⟨h, _⟩ <;> omega

theorem C9_witness :
    1 ≤ (("A", (⟨1, 5, none⟩ : ClientRecord)) : String × ClientRecord).2.count
    ∧ (("A", (⟨1, 5, none⟩ : ClientRecord)) : String × ClientRecord).2.count
        ≤ transactionRateLimiterConfig.maxRequests + 1 :=
  C9_counter_bounded transactionRateLimiterConfig 5
    (limit transactionRateLimiterConfig [] "A" 5).2
    (by decide)
    (Reach.step_limit "A" 5 Reach.init (Nat.zero_le 5))
    ("A", ⟨1, 5, none⟩) (by decide)

/-! ### Sweep eviction (C6) -/

/-- C6 counterexample: `maxEntries = 1`, store with two entries, the
retained (most recent) one carrying `blockedUntil = 0`, which has passed
(`0 ≤ now = 10`); the claim says the retained entry's `blockedUntil` is
cleared iff `blockedUntil ≤ now`, but the code's truthiness test
(`client.blockedUntil && ...`) skips the falsy value `0`, so the field
survives the sweep. -/
theorem C6_counterexample :
    (cleanup ⟨10, 60000, 3600000, 1⟩
        [("a", ⟨1, 9, some 0⟩), ("b", ⟨1, 5, none⟩)] 10).map
      (fun p => p.2.blockedUntil) = [some 0]
    ∧ (0 : Nat) ≤ 10 ∧ some (0 : Nat) ≠ none := by
  decide

theorem clearExpired_fst (now : Nat) (p : String × ClientRecord) :
    (clearExpired now p).1 = p.1 := by
  obtain ⟨k, c, lr, bu0⟩ := p
  rcases bu0 with _ | bu
  · rfl
  · by_cases h : bu ≠ 0 ∧ bu ≤ now <;> simp [clearExpired, h]

theorem clearExpired_count (now : Nat) (p : String × ClientRecord) :
    (clearExpired now p).2.count = p.2.count := by
  obtain ⟨k, c, lr, bu0⟩ := p
  rcases bu0 with _ | bu
  · rfl
  · by_cases h : bu ≠ 0 ∧ bu ≤ now <;> simp [clearExpired, h]

theorem clearExpired_lastRequest (now : Nat) (p : String × ClientRecord) :
    (clearExpired now p).2.lastRequest = p.2.lastRequest := by
  obtain ⟨k, c, lr, bu0⟩ := p
  rcases bu0 with _ | bu
  · rfl
  · by_cases h : bu ≠ 0 ∧ bu ≤ now <;> simp [clearExpired, h]

theorem clearExpired_blockedUntil (now : Nat) (p : String × ClientRecord) :
    (clearExpired now p).2.blockedUntil
      = match p.2.blockedUntil with
        | some bu => if bu ≠ 0 ∧ bu ≤ now then none else some bu
        | none => none := by
  obtain ⟨k, c, lr, bu0⟩ := p
  rcases bu0 with _ | bu
  · rfl
  · by_cases h : bu ≠ 0 ∧ bu ≤ now <;> simp [clearExpired, h]

theorem cleanup_char (cfg : RLConfig) (s : Store) (now : Nat) :
    cleanup cfg s now = (s.filter (fun p => decide (p.1 ∉
      ((List.insertionSort entryLe s).drop cfg.maxEntries).map Prod.fst))).map
      (clearExpired now) := rfl

theorem filter_take_drop {α : Type _} (l : List α) (n : Nat) (P : α → Bool)
    (htake : ∀ p ∈ l.take n, P p = true)
    (hdrop : ∀ p ∈ l.drop n, ¬(P p = true)) :
    l.filter P = l.take n := by
  conv_lhs => rw [← List.take_append_drop n l]
  rw [List.filter_append, List.filter_eq_self.mpr htake,
    List.filter_eq_nil_iff.mpr hdrop, List.append_nil]

/-- C6 (amended): on a store with unique keys and more than `maxEntries`
entries, one sweep leaves exactly `maxEntries` entries; every retained
entry comes from a store entry with the same key, `count` and
`lastRequest`, its `blockedUntil` cleared iff it was a truthy (non-zero)
value `≤ now` (the falsy value `0` survives, see the counterexample); and
every evicted entry's `lastRequest` is at most that of every retained
entry (least-recently-active evicted first, ties broken
deterministically by the stable sort). -/
theorem C6_sweep_keeps_most_recent (cfg : RLConfig) (s : Store) (now : Nat)
    (hnd : (s.map Prod.fst).Nodup)
    (hlen : cfg.maxEntries < s.length) :
    (cleanup cfg s now).length = cfg.maxEntries
    ∧ (∀ p ∈ cleanup cfg s now, ∃ q ∈ s,
        p.1 = q.1 ∧ p.2.count = q.2.count ∧ p.2.lastRequest = q.2.lastRequest
        ∧ p.2.blockedUntil = (match q.2.blockedUntil with
            | some bu => if bu ≠ 0 ∧ bu ≤ now then none else some bu
            | none => none))
    ∧ (∀ p ∈ cleanup cfg s now, ∀ q ∈ s,
        q.1 ∉ (cleanup cfg s now).map Prod.fst →
        q.2.lastRequest ≤ p.2.lastRequest) := by
  have hperm : (List.insertionSort entryLe s).Perm s := List.perm_insertionSort entryLe s
  have hsorted : List.Pairwise entryLe (List.insertionSort entryLe s) :=
    List.sorted_insertionSort entryLe s
  have hlenl : (List.insertionSort entryLe s).length = s.length := hperm.length_eq
  have hndl : ((List.insertionSort entryLe s).map Prod.fst).Nodup :=
    ((hperm.map Prod.fst).symm).nodup hnd
  have hsplit : (List.insertionSort entryLe s).take cfg.maxEntries
      ++ (List.insertionSort entryLe s).drop cfg.maxEntries
      = List.insertionSort entryLe s := List.take_append_drop _ _
  have hmapsplit : ((List.insertionSort entryLe s).take cfg.maxEntries).map Prod.fst
      ++ ((List.insertionSort entryLe s).drop cfg.maxEntries).map Prod.fst
      = (List.insertionSort entryLe s).map Prod.fst := by
    rw [← List.map_append, hsplit]
  have hdisj : List.Disjoint
      (((List.insertionSort entryLe s).take cfg.maxEntries).map Prod.fst)
      (((List.insertionSort entryLe s).drop cfg.maxEntries).map Prod.fst) := by
    have hn := hndl
    rw [← hmapsplit] at hn
    exact (List.nodup_append.mp hn).2.2
  have htakeP : ∀ p ∈ (List.insertionSort entryLe s).take cfg.maxEntries,
      (fun p => decide (p.1 ∉
        ((List.insertionSort entryLe s).drop cfg.maxEntries).map Prod.fst)) p = true := by
    intro p hp
    simp only [decide_eq_true_eq]
    intro hmem
    exact hdisj (List.mem_map_of_mem Prod.fst hp) hmem
  have hdropP : ∀ p ∈ (List.insertionSort entryLe s).drop cfg.maxEntries,
      ¬((fun p => decide (p.1 ∉
        ((List.insertionSort entryLe s).drop cfg.maxEntries).map Prod.fst)) p = true) := by
    intro p hp
    simp only [decide_eq_true_eq, Decidable.not_not]
    exact List.mem_map_of_mem Prod.fst hp
  have hfilter_l : (List.insertionSort entryLe s).filter
      (fun p => decide (p.1 ∉
        ((List.insertionSort entryLe s).drop cfg.maxEntries).map Prod.fst))
      = (List.insertionSort entryLe s).take cfg.maxEntries :=
    filter_take_drop (List.insertionSort entryLe s) cfg.maxEntries _ htakeP hdropP
  have hkept_perm : (s.filter (fun p => decide (p.1 ∉
      ((List.insertionSort entryLe s).drop cfg.maxEntries).map Prod.fst))).Perm
      ((List.insertionSort entryLe s).take cfg.maxEntries) := by
    have h := (hperm.filter (fun p => decide (p.1 ∉
      ((List.insertionSort entryLe s).drop cfg.maxEntries).map Prod.fst))).symm
    rw [hfilter_l] at h
    exact h
  have hlen_take : ((List.insertionSort entryLe s).take cfg.maxEntries).length
      = cfg.maxEntries := by
    rw [List.length_take]
    omega
  refine ⟨?_, ?_, ?_⟩
  · rw [cleanup_char, List.length_map, hkept_perm.length_eq, hlen_take]
  · intro p hp
    rw [cleanup_char] at hp
    obtain ⟨q, hq, hpq⟩ := List.mem_map.mp hp
    refine ⟨q, List.mem_of_mem_filter hq, ?_, ?_, ?_, ?_⟩
    · rw [← hpq, clearExpired_fst]
    · rw [← hpq, clearExpired_count]
    · rw [← hpq, clearExpired_lastRequest]
    · rw [← hpq, clearExpired_blockedUntil]
  · intro p hp q hq hqnot
    rw [cleanup_char] at hp hqnot
    have hkeys : ((s.filter (fun p => decide (p.1 ∉
        ((List.insertionSort entryLe s).drop cfg.maxEntries).map Prod.fst))).map
        (clearExpired now)).map Prod.fst
        = (s.filter (fun p => decide (p.1 ∉
        ((List.insertionSort entryLe s).drop cfg.maxEntries).map Prod.fst))).map
        Prod.fst := by
      rw [List.map_map]
      exact List.map_congr_left (fun a _ => clearExpired_fst now a)
    rw [hkeys] at hqnot
    have hPq : ¬((fun p => decide (p.1 ∉
        ((List.insertionSort entryLe s).drop cfg.maxEntries).map Prod.fst)) q = true) := by
      intro hPq
      exact hqnot (List.mem_map_of_mem Prod.fst (List.mem_filter.mpr ⟨hq, hPq⟩))
    have hqdoom : q.1 ∈ ((List.insertionSort entryLe s).drop cfg.maxEntries).map Prod.fst := by
      simpa [Decidable.not_not] using hPq
    obtain ⟨q', hq'drop, hq'key⟩ := List.mem_map.mp hqdoom
    have hq'l : q' ∈ List.insertionSort entryLe s := List.drop_subset _ _ hq'drop
    have hql : q ∈ List.insertionSort entryLe s := hperm.mem_iff.mpr hq
    have hqq : q' = q := List.inj_on_of_nodup_map hndl hq'l hql hq'key
    obtain ⟨q0, hq0, hpq0⟩ := List.mem_map.mp hp
    have hq0take : q0 ∈ (List.insertionSort entryLe s).take cfg.maxEntries :=
      hkept_perm.mem_iff.mp hq0
    have hpairs : List.Pairwise entryLe ((List.insertionSort entryLe s).take cfg.maxEntries
        ++ (List.insertionSort entryLe s).drop cfg.maxEntries) := by
      rw [hsplit]; exact hsorted
    have hle := (List.pairwise_append.mp hpairs).2.2 q0 hq0take q' hq'drop
    rw [← hpq0, clearExpired_lastRequest, ← hqq]
    exact hle

theorem C6_witness :
    ((cleanup ⟨10, 60000, 3600000, 1⟩
        [("a", ⟨2, 9, some 3⟩), ("b", ⟨1, 5, none⟩)] 10).length
      = (⟨10, 60000, 3600000, 1⟩ : RLConfig).maxEntries)
    ∧ (∀ p ∈ cleanup ⟨10, 60000, 3600000, 1⟩
          [("a", ⟨2, 9, some 3⟩), ("b", ⟨1, 5, none⟩)] 10,
        ∃ q ∈ ([("a", ⟨2, 9, some 3⟩), ("b", ⟨1, 5, none⟩)] : Store),
        p.1 = q.1 ∧ p.2.count = q.2.count ∧ p.2.lastRequest = q.2.lastRequest
        ∧ p.2.blockedUntil = (match q.2.blockedUntil with
            | some bu => if bu ≠ 0 ∧ bu ≤ 10 then none else some bu
            | none => none)) :=
  ⟨(C6_sweep_keeps_most_recent ⟨10, 60000, 3600000, 1⟩
      [("a", ⟨2, 9, some 3⟩), ("b", ⟨1, 5, none⟩)] 10 (by decide) (by decide)).1,
   (C6_sweep_keeps_most_recent ⟨10, 60000, 3600000, 1⟩
      [("a", ⟨2, 9, some 3⟩), ("b", ⟨1, 5, none⟩)] 10 (by decide) (by decide)).2.1⟩
